import Mathlib

/-!
Verification development for the mylang-rs compiler middle end.

The Rust sources are shallowly embedded: blocks live in `Rc<RefCell<...>>`
cells and are identified by address, which the embedding models by giving
every block a numeric identifier (`BlockId`); a function's block vector is an
association list from identifier to block payload.  `HashMap`s and `HashSet`s
are modelled as association lists and lists with set-like insertion; iteration
order of a Rust hash container is arbitrary, and the embedding fixes the
insertion order as one admissible iteration order.  Machine integers that can
overflow are modelled with explicit checks where the overflow matters.
-/

namespace MylangRs

/-- Association-list lookup keyed by naturals, modelling `HashMap::get`. -/
def lookupA {β : Type} : List (Nat × β) → Nat → Option β
  | [], _ => none
  | (k, v) :: rest, key => if k = key then some v else lookupA rest key

/-- Association-list insert-or-overwrite, modelling `HashMap::insert`. -/
def updateA {β : Type} : List (Nat × β) → Nat → β → List (Nat × β)
  | [], key, val => [(key, val)]
  | (k, v) :: rest, key, val =>
    if k = key then (k, val) :: rest else (k, v) :: updateA rest key val

/-- Association-list removal, modelling `HashMap::remove`. -/
def removeA {β : Type} : List (Nat × β) → Nat → List (Nat × β)
  | [], _ => []
  | (k, v) :: rest, key => if k = key then rest else (k, v) :: removeA rest key

/-- Set-like insertion into a list, modelling `HashSet::insert`. -/
def insertS (l : List Nat) (x : Nat) : List Nat :=
  if x ∈ l then l else l ++ [x]

/- ## Core SSA data model (src/src/ir/structs.rs, src/src/ir/instructions.rs)

SSA virtual registers (`VirtualRegister`, index field) are modelled as `Nat`;
an SSA lvalue `VirtualRegisterLValue` wraps the same index, so the embedding
uses the bare index for both sides. -/

abbrev Reg := Nat
abbrev BlockId := Nat

/-- the `UnaryOperator` used by instruction right-hand sides. -/
inductive UnaryOperator where
  | not
deriving DecidableEq, Repr

/-- the `BinaryOperator` variants consumed by `constant_folding`. -/
inductive BinaryOperator where
  | add | sub | mul | div | and | xor
deriving DecidableEq, Repr

/-- `InstructionRHS<VirtualRegister>` from src/src/ir/instructions.rs. -/
inductive InstructionRHS where
  | readMemory (arg : Reg)
  | unaryOperation (operator : UnaryOperator) (arg : Reg)
  | binaryOperation (operator : BinaryOperator) (arg1 arg2 : Reg)
  | loadIntegerLiteral (value : Int)
  | move (src : Reg)
  | readInput
deriving DecidableEq, Repr

/-- `Instruction` with an SSA lvalue and an `InstructionRHS` payload. -/
structure Instr where
  lhs : Reg
  rhs : InstructionRHS
deriving DecidableEq, Repr

/-- `JumpInstruction`; destination blocks are held by strong reference in the
source and are identifiers here. -/
inductive JumpInstruction where
  | branchIfElseZero (pred : Reg) (conseq alt : BlockId)
  | unconditionalJump (dest : BlockId)
  | ret (val : Option Reg)
deriving DecidableEq, Repr

/-- `Phi`, with `srcs` the map from predecessor block to source register. -/
structure PhiNode where
  dest : Reg
  srcs : List (BlockId × Reg)
deriving DecidableEq, Repr

/-- `FullBlock` for the SSA configuration: predecessor set, phis,
instructions, and the terminator (`exit`). -/
structure SSABlock where
  preds : List BlockId
  phis : List PhiNode
  instructions : List Instr
  exit : JumpInstruction
deriving DecidableEq, Repr

/-- `Function` over SSA blocks: a start block and the block vector. -/
structure SSAFunction where
  startBlock : BlockId
  blocks : List (BlockId × SSABlock)
deriving DecidableEq, Repr

/-- register uses of an `InstructionRHS` (the `WithRegisters::regs` impl). -/
def rhsRegs : InstructionRHS → List Reg
  | .readMemory arg => [arg]
  | .unaryOperation _ arg => [arg]
  | .binaryOperation _ arg1 arg2 => [arg1, arg2]
  | .loadIntegerLiteral _ => []
  | .move src => [src]
  | .readInput => []

/-- register uses of a `JumpInstruction` (the `WithRegisters::regs` impl). -/
def jumpRegs : JumpInstruction → List Reg
  | .branchIfElseZero pred _ _ => [pred]
  | .unconditionalJump _ => []
  | .ret none => []
  | .ret (some out) => [out]

/-- destination blocks of a `JumpInstruction` (`JumpInstruction::dests`). -/
def jumpDests : JumpInstruction → List BlockId
  | .branchIfElseZero _ conseq alt => [conseq, alt]
  | .unconditionalJump dest => [dest]
  | .ret _ => []

/-- rewrite of every destination equal to `old` into `new`, modelling the
`dests_mut` loop in `remove_empty_blocks`. -/
def replaceDests (j : JumpInstruction) (old new : BlockId) : JumpInstruction :=
  match j with
  | .branchIfElseZero pred conseq alt =>
    .branchIfElseZero pred (if conseq = old then new else conseq)
      (if alt = old then new else alt)
  | .unconditionalJump dest =>
    .unconditionalJump (if dest = old then new else dest)
  | .ret val => .ret val

/-- map of a register-rewriting function over an `InstructionRHS`
(the `regs_mut` iterator applied with a mapper). -/
def mapRHS (m : Reg → Reg) : InstructionRHS → InstructionRHS
  | .readMemory arg => .readMemory (m arg)
  | .unaryOperation op arg => .unaryOperation op (m arg)
  | .binaryOperation op arg1 arg2 => .binaryOperation op (m arg1) (m arg2)
  | .loadIntegerLiteral v => .loadIntegerLiteral v
  | .move src => .move (m src)
  | .readInput => .readInput

/-- map of a register-rewriting function over a terminator's registers. -/
def mapJumpRegs (m : Reg → Reg) : JumpInstruction → JumpInstruction
  | .branchIfElseZero pred conseq alt => .branchIfElseZero (m pred) conseq alt
  | .unconditionalJump dest => .unconditionalJump dest
  | .ret val => .ret (val.map m)

/-- update of one block (by identifier) inside a block vector. -/
def updateBlock (bs : List (BlockId × SSABlock)) (id : BlockId)
    (f : SSABlock → SSABlock) : List (BlockId × SSABlock) :=
  bs.map fun p => if p.1 = id then (p.1, f p.2) else p

/- ## clear_dead_blocks (src/src/ir/structs.rs)

A block object stays allocated while a strong reference reaches it; strong
references are the function's `start_block` field and the terminator
destinations.  The embedding keeps the blocks strongly reachable from the
start block - the same set, except that the source additionally leaks blocks
forming an unreachable strong-reference cycle, which no input used below
produces. -/

/-- one breadth step of strong-edge reachability. -/
def reachStep (F : SSAFunction) (r : List BlockId) : List BlockId :=
  r.foldl (fun acc i =>
    match lookupA F.blocks i with
    | some b => (jumpDests b.exit).foldl insertS acc
    | none => acc) r

/-- blocks strongly reachable from the start block. -/
def reachableFrom (F : SSAFunction) : List BlockId :=
  (F.blocks.length).iterate (reachStep F) [F.startBlock]

/-- `Function::clear_dead_blocks`, dropping block-vector entries whose block
is no longer strongly referenced. -/
def clearDeadBlocks (F : SSAFunction) : SSAFunction :=
  { F with blocks := F.blocks.filter fun p => p.1 ∈ reachableFrom F }

/- ## remove_empty_blocks (src/src/optimizations/block_merging.rs) -/

/-- eligibility test of the `func.blocks().find(...)` closure: not yet
visited, no instructions, no phis, unconditional jump. -/
def rebEligible (visited : List BlockId) (p : BlockId × SSABlock) : Bool :=
  !(visited.contains p.1) && p.2.instructions.isEmpty && p.2.phis.isEmpty &&
    (match p.2.exit with
     | .unconditionalJump _ => true
     | _ => false)

/-- the `risky_phi` test: some phi of the destination block has an entry for
predecessor `p` that maps the same register as the entry for the removed
block `b` (`.map(|reg| reg != block_reg) == Some(false)`).  A phi without an
entry for `b` makes the source panic ("phis should include all preds"); the
embedding, used only where the entry exists, contributes `false` there. -/
def riskyPhi (dPhis : List PhiNode) (bId p : BlockId) : Bool :=
  dPhis.any fun phi =>
    match lookupA phi.srcs bId with
    | none => false
    | some blockReg =>
      match lookupA phi.srcs p with
      | some r => r = blockReg
      | none => false

/-- body of the per-predecessor loop of `remove_empty_blocks`: either skip
(when `risky_phi` holds) or redirect `p` from `bId` straight to `dId`,
rewriting `p`'s terminator, moving the phi entries of the destination from
`bId` to `p`, and updating the destination's predecessor set. -/
def redirectPred (bId dId : BlockId) (F : SSAFunction) (p : BlockId) :
    SSAFunction :=
  match lookupA F.blocks dId with
  | none => F
  | some dBlk =>
    if riskyPhi dBlk.phis bId p then F
    else
      let F1 := { F with blocks := updateBlock F.blocks p fun pb =>
        { pb with exit := replaceDests pb.exit bId dId } }
      { F1 with blocks := updateBlock F1.blocks dId fun db =>
        { db with
          phis := db.phis.map fun phi =>
            match lookupA phi.srcs bId with
            | none => phi
            | some blockReg =>
              { phi with srcs := removeA (updateA phi.srcs p blockReg) bId }
          preds := insertS (db.preds.erase bId) p } }

/-- search for the next block to elide, returning its identifier, jump
destination, and a snapshot of its predecessor set. -/
def rebFind (visited : List BlockId) (bs : List (BlockId × SSABlock)) :
    Option (BlockId × BlockId × List BlockId) :=
  match bs.find? (rebEligible visited) with
  | some (i, b) =>
    match b.exit with
    | .unconditionalJump d => some (i, d, b.preds)
    | _ => none
  | none => none

/-- the `while let` loop of `remove_empty_blocks`.  Each iteration inserts a
fresh block into the visited set, so the number of iterations is bounded by
the number of blocks; the bound is supplied as fuel by the wrapper. -/
def rebLoop : Nat → List BlockId → SSAFunction → SSAFunction
  | 0, _, F => F
  | fuel + 1, visited, F =>
    match rebFind visited F.blocks with
    | none => F
    | some (bId, dId, preds) =>
      rebLoop fuel (bId :: visited) (preds.foldl (redirectPred bId dId) F)

/-- `remove_empty_blocks`: run the elision loop, then sweep dead blocks. -/
def removeEmptyBlocks (F : SSAFunction) : SSAFunction :=
  clearDeadBlocks (rebLoop F.blocks.length [] F)

/- ## Concrete functions exercising remove_empty_blocks -/

/-- a well-formed SSA function with four blocks: the start block 0 branches
on an input to the empty block 2 or to block 3; block 1 jumps to block 2;
block 2 is empty and jumps to block 3; block 3 carries a phi whose entries
for blocks 0 and 2 name the same register 2, and jumps to block 1. -/
def integrityInput : SSAFunction :=
  { startBlock := 0
    blocks :=
      [ (0, { preds := []
              phis := []
              instructions := [⟨1, .readInput⟩, ⟨2, .loadIntegerLiteral 1⟩]
              exit := .branchIfElseZero 1 2 3 })
      , (1, { preds := [3]
              phis := []
              instructions := [⟨3, .loadIntegerLiteral 7⟩]
              exit := .unconditionalJump 2 })
      , (2, { preds := [0, 1]
              phis := []
              instructions := []
              exit := .unconditionalJump 3 })
      , (3, { preds := [0, 2]
              phis := [⟨4, [(0, 2), (2, 2)]⟩]
              instructions := []
              exit := .unconditionalJump 1 }) ] }

/-- C1: for `integrityInput`, `remove_empty_blocks` breaks block graph
integrity.  Block 2 is empty and jumps to block 3.  The redirection of
predecessor 0 is skipped because block 3's phi maps blocks 0 and 2 to the
same register, while predecessor 1 is redirected, and that redirection
removes block 2 from block 3's predecessor set and drops the phi entry for
block 2.  Block 2 stays live (block 0's branch still targets it) and still
jumps to block 3, yet block 2 is no longer in block 3's predecessor set. -/
theorem remove_empty_blocks_breaks_block_graph_integrity :
    2 ∈ reachableFrom (removeEmptyBlocks integrityInput) ∧
    (lookupA (removeEmptyBlocks integrityInput).blocks 2).map
        (fun b => b.exit) = some (.unconditionalJump 3) ∧
    (lookupA (removeEmptyBlocks integrityInput).blocks 3).map
        (fun b => decide (2 ∈ b.preds)) = some false := by
  decide

/-- a well-formed SSA function with three blocks: the start block 0 branches
on an input to the empty block 1 or to block 2; block 1 jumps to block 2;
block 2 carries a phi whose entry for block 0 is register 2 and whose entry
for block 1 is register 3, two different registers. -/
def phiConflictInput : SSAFunction :=
  { startBlock := 0
    blocks :=
      [ (0, { preds := []
              phis := []
              instructions :=
                [⟨1, .readInput⟩, ⟨2, .loadIntegerLiteral 1⟩,
                 ⟨3, .loadIntegerLiteral 2⟩]
              exit := .branchIfElseZero 1 1 2 })
      , (1, { preds := [0]
              phis := []
              instructions := []
              exit := .unconditionalJump 2 })
      , (2, { preds := [0, 1]
              phis := [⟨4, [(0, 2), (1, 3)]⟩]
              instructions := []
              exit := .ret (some 4) }) ] }

/-- C2: on `phiConflictInput`, block 2's phi has an existing entry for
predecessor 0 (register 2) that differs from the entry for the empty block 1
(register 3), so the redirection of predecessor 0 must be skipped.  The code
instead performs the redirection (its `risky_phi` test fires on equal
registers, the opposite of the conflict its comment describes): block 0's
branch is rewritten to target block 2 on both edges and the phi's entry for
block 0 is overwritten with block 1's register 3, changing the value block 0
contributes. -/
theorem remove_empty_blocks_redirects_on_phi_conflict :
    (lookupA (removeEmptyBlocks phiConflictInput).blocks 0).map
        (fun b => b.exit) = some (.branchIfElseZero 1 2 2) ∧
    (lookupA (removeEmptyBlocks phiConflictInput).blocks 2).map
        (fun b => b.phis) = some [⟨4, [(0, 3)]⟩] := by
  decide

/- ## Union-find (src/src/utils/union_find.rs)

Each inserted value owns exactly one node; `lookup` is the set of values with
a node and `parent` records, per value, the value held by its node's parent
pointer.  The `size` field only influences `union`, which `copy_propagation`
never calls, so it is omitted.  `find_root` in the source walks parent
pointers until it reaches a parentless node, diverging on a cyclic parent
chain; the embedding walks with fuel `parent.length`, which reaches the root
whenever the chain is acyclic. -/

structure UnionFind where
  lookup : List Reg
  parent : List (Reg × Reg)
deriving DecidableEq, Repr

/-- node creation for a value (`UnionFind::insert`). -/
def UnionFind.insertVal (uf : UnionFind) (v : Reg) : UnionFind :=
  { uf with lookup := uf.lookup ++ [v] }

/-- `UnionFind::directed_union`: create missing nodes for `p` and `c`, then
point `c`'s node at `p`'s node (`link_nodes`, unconditional overwrite). -/
def UnionFind.directedUnion (uf : UnionFind) (p c : Reg) : UnionFind :=
  let uf1 := if p ∈ uf.lookup then uf else uf.insertVal p
  let uf2 := if c ∈ uf1.lookup then uf1 else uf1.insertVal c
  { uf2 with parent := updateA uf2.parent c p }

/-- fuelled walk up the parent chain. -/
def chase (parent : List (Reg × Reg)) : Nat → Reg → Reg
  | 0, pos => pos
  | fuel + 1, pos =>
    match lookupA parent pos with
    | none => pos
    | some p => chase parent fuel p

/-- `UnionFind::find_root`: `None` when the value has no node, otherwise the
value at the top of the parent chain. -/
def UnionFind.findRoot (uf : UnionFind) (a : Reg) : Option Reg :=
  if a ∈ uf.lookup then some (chase uf.parent uf.parent.length a) else none

/-- the register replacement of `make_reg_replacer`:
`find_root(reg).map_or(reg, |node| node.value)`. -/
def UnionFind.mapper (uf : UnionFind) (r : Reg) : Reg :=
  (uf.findRoot r).getD r

/-- acyclicity of a union-find's parent chains: the fuelled walk from every
value with a node ends at a parentless value.  This is what makes the
source's `find_root` loop terminate; SSA dominance of uses guarantees it for
the union-find built by `copy_propagation`. -/
def UnionFind.Rooted (uf : UnionFind) : Prop :=
  ∀ a ∈ uf.lookup,
    lookupA uf.parent (chase uf.parent uf.parent.length a) = none

instance (uf : UnionFind) : Decidable uf.Rooted := by
  unfold UnionFind.Rooted; infer_instance

/- ## copy_propagation (src/src/optimizations/copy_propagation.rs) -/

/-- extraction of a move instruction as a `(src, dest)` pair. -/
def moveExtract (i : Instr) : Option (Reg × Reg) :=
  match i.rhs with
  | .move src => some (src, i.lhs)
  | _ => none

/-- the `move src -> dest` pairs of a function, in block order then
instruction order. -/
def movesOf (F : SSAFunction) : List (Reg × Reg) :=
  F.blocks.flatMap fun p => p.2.instructions.filterMap moveExtract

/-- the union-find accumulated by the first loop of `copy_propagation`. -/
def buildUF (F : SSAFunction) : UnionFind :=
  (movesOf F).foldl (fun uf sd => uf.directedUnion sd.1 sd.2) ⟨[], []⟩

/-- `all_equal` of itertools, true on the empty list. -/
def allEqual : List Reg → Bool
  | [] => true
  | x :: xs => xs.all fun y => y = x

/-- rewrite of a phi's source registers through the mapper (keys kept). -/
def mapPhi (m : Reg → Reg) (phi : PhiNode) : PhiNode :=
  { phi with srcs := phi.srcs.map fun s => (s.1, m s.2) }

/-- per-block body of `copy_propagation`: rewrite phi sources, demote phis
whose sources all collapse to one register into move instructions placed at
the head of the block, and rewrite instruction and terminator registers.
The demoted move's source is the phi's first source value; the source panics
on a phi with no sources ("phis must have at least one src"), a case the
embedding (used on functions whose phis all have a source) defaults to 0. -/
def cpBlock (m : Reg → Reg) (b : SSABlock) : SSABlock :=
  { b with
    phis := (b.phis.map (mapPhi m)).filter fun phi =>
      !allEqual (phi.srcs.map Prod.snd)
    instructions :=
      (((b.phis.map (mapPhi m)).filter fun phi =>
          allEqual (phi.srcs.map Prod.snd)).map fun phi =>
        (⟨phi.dest, .move ((phi.srcs.map Prod.snd).headD 0)⟩ : Instr)) ++
      b.instructions.map fun i => { i with rhs := mapRHS m i.rhs }
    exit := mapJumpRegs m b.exit }

/-- `copy_propagation`: build the union-find over all moves, then rewrite
every block through the representative mapper. -/
def copyPropagation (F : SSAFunction) : SSAFunction :=
  let m := (buildUF F).mapper
  { F with blocks := F.blocks.map fun p => (p.1, cpBlock m p.2) }

/-- a well-formed SSA function whose block 3 carries a phi with both sources
equal to register 2; copy propagation demotes it to a move. -/
def demotedPhiInput : SSAFunction :=
  { startBlock := 0
    blocks :=
      [ (0, { preds := []
              phis := []
              instructions := [⟨1, .readInput⟩, ⟨2, .loadIntegerLiteral 1⟩]
              exit := .branchIfElseZero 1 1 2 })
      , (1, { preds := [0], phis := [], instructions := []
              exit := .unconditionalJump 3 })
      , (2, { preds := [0], phis := [], instructions := []
              exit := .unconditionalJump 3 })
      , (3, { preds := [1, 2]
              phis := [⟨3, [(1, 2), (2, 2)]⟩]
              instructions := [⟨4, .unaryOperation .not 3⟩]
              exit := .ret (some 4) }) ] }

/-- C5 counterexample: copy propagation is not idempotent.  On
`demotedPhiInput` the first application demotes the phi of block 3 to the
move `3 := 2` but leaves the use of register 3 in `4 := not 3` untouched
(the move did not exist when the union-find was built); the second
application collects the new move and rewrites the use to `4 := not 2`. -/
theorem copy_propagation_not_idempotent :
    copyPropagation (copyPropagation demotedPhiInput) ≠
      copyPropagation demotedPhiInput := by
  decide

/- ## Idempotence of copy_propagation in the absence of phi demotion -/

theorem lookupA_updateA {β : Type} (l : List (Nat × β)) (k : Nat) (v : β)
    (c : Nat) :
    lookupA (updateA l k v) c = if k = c then some v else lookupA l c := by
  induction l with
  | nil => by_cases h : k = c <;> simp [updateA, lookupA, h]
  | cons hd tl ih =>
    obtain ⟨a, b⟩ := hd
    simp only [updateA]
    by_cases hak : a = k
    · subst hak
      simp only [if_pos rfl, lookupA]
      by_cases hac : a = c <;> simp [hac]
    · simp only [if_neg hak, lookupA]
      by_cases hac : a = c
      · subst hac
        have hkc : ¬k = a := fun h => hak h.symm
        simp [hkc]
      · simp [hac, ih]

theorem chase_of_none {parent : List (Reg × Reg)} {pos : Reg}
    (h : lookupA parent pos = none) (n : Nat) : chase parent n pos = pos := by
  cases n with
  | zero => rfl
  | succ m => simp [chase, h]

theorem map_self_of_mem {α : Type} {f : α → α} :
    ∀ {l : List α}, (∀ x ∈ l, f x = x) → l.map f = l
  | [], _ => rfl
  | hd :: tl, h => by
    have h1 : f hd = hd := h hd (by simp)
    have h2 : tl.map f = tl := map_self_of_mem fun x hx => h x (by simp [hx])
    simp [h1, h2]

theorem filter_eq_nil_of {α : Type} {p : α → Bool} :
    ∀ {l : List α}, (∀ x ∈ l, p x = false) → l.filter p = []
  | [], _ => rfl
  | hd :: tl, h => by
    have h1 : p hd = false := h hd (by simp)
    have h2 : tl.filter p = [] :=
      filter_eq_nil_of fun x hx => h x (by simp [hx])
    simp [List.filter_cons, h1, h2]

theorem filter_eq_self_of {α : Type} {p : α → Bool} :
    ∀ {l : List α}, (∀ x ∈ l, p x = true) → l.filter p = l
  | [], _ => rfl
  | hd :: tl, h => by
    have h1 : p hd = true := h hd (by simp)
    have h2 : tl.filter p = tl :=
      filter_eq_self_of fun x hx => h x (by simp [hx])
    simp [List.filter_cons, h1, h2]

theorem flatMap_map_arg {α β γ : Type} (l : List α) (f : α → β)
    (g : β → List γ) : (l.map f).flatMap g = l.flatMap fun x => g (f x) := by
  induction l with
  | nil => rfl
  | cons hd tl ih => simp [ih]

theorem flatMap_map_of_mem {α β γ : Type} {g1 : α → List γ}
    {g2 : α → List β} {h : β → γ} :
    ∀ {l : List α}, (∀ x ∈ l, g1 x = (g2 x).map h) →
      l.flatMap g1 = (l.flatMap g2).map h
  | [], _ => rfl
  | hd :: tl, hp => by
    have h1 : g1 hd = (g2 hd).map h := hp hd (by simp)
    have h2 : tl.flatMap g1 = (tl.flatMap g2).map h :=
      flatMap_map_of_mem fun x hx => hp x (by simp [hx])
    simp [h1, h2]

theorem directedUnion_parent (uf : UnionFind) (p c : Reg) :
    (uf.directedUnion p c).parent = updateA uf.parent c p := by
  simp only [UnionFind.directedUnion, UnionFind.insertVal]
  split <;> split <;> rfl

theorem directedUnion_lookup_mono (uf : UnionFind) (p c x : Reg)
    (h : x ∈ uf.lookup) : x ∈ (uf.directedUnion p c).lookup := by
  simp only [UnionFind.directedUnion, UnionFind.insertVal]
  split <;> split <;> simp_all

theorem directedUnion_child_mem (uf : UnionFind) (p c : Reg) :
    c ∈ (uf.directedUnion p c).lookup := by
  simp only [UnionFind.directedUnion, UnionFind.insertVal]
  split
  · split
    · assumption
    · simp
  · rename_i hp
    split
    · assumption
    · simp

/-- every value with a parent entry has a node (is in `lookup`). -/
theorem foldl_du_parent_mem_lookup (ms : List (Reg × Reg)) (uf : UnionFind)
    (h : ∀ c p, lookupA uf.parent c = some p → c ∈ uf.lookup) :
    ∀ c p, lookupA ((ms.foldl (fun u sd => u.directedUnion sd.1 sd.2)
      uf).parent) c = some p →
      c ∈ (ms.foldl (fun u sd => u.directedUnion sd.1 sd.2) uf).lookup := by
  induction ms generalizing uf with
  | nil => exact h
  | cons hd tl ih =>
    simp only [List.foldl_cons]
    apply ih
    intro c p hcp
    rw [directedUnion_parent, lookupA_updateA] at hcp
    by_cases hc : hd.2 = c
    · subst hc
      exact directedUnion_child_mem uf hd.1 hd.2
    · simp only [hc, if_false] at hcp
      exact directedUnion_lookup_mono uf hd.1 hd.2 c (h c p hcp)

/-- characterization of which values carry a parent entry after the folds:
exactly the destinations of the processed moves (plus whatever the initial
union-find had). -/
theorem foldl_du_parent_none (ms : List (Reg × Reg)) (uf : UnionFind)
    (c : Reg) :
    lookupA ((ms.foldl (fun u sd => u.directedUnion sd.1 sd.2) uf).parent) c
        = none ↔
      lookupA uf.parent c = none ∧ c ∉ ms.map Prod.snd := by
  induction ms generalizing uf with
  | nil => simp
  | cons hd tl ih =>
    simp only [List.foldl_cons, ih, directedUnion_parent, lookupA_updateA,
      List.map_cons, List.mem_cons]
    by_cases hc : hd.2 = c <;> simp [hc] <;> tauto

theorem buildUF_parent_mem_lookup (F : SSAFunction) :
    ∀ c p, lookupA (buildUF F).parent c = some p → c ∈ (buildUF F).lookup :=
  foldl_du_parent_mem_lookup (movesOf F) ⟨[], []⟩
    (by intro c p h; simp [lookupA] at h)

theorem buildUF_parent_none (F : SSAFunction) (c : Reg) :
    lookupA (buildUF F).parent c = none ↔ c ∉ (movesOf F).map Prod.snd := by
  have := foldl_du_parent_none (movesOf F) ⟨[], []⟩ c
  simpa [buildUF, lookupA] using this

/-- with acyclic parent chains, every mapper image is parentless. -/
theorem mapper_image_parent_none (F : SSAFunction)
    (hroot : (buildUF F).Rooted) (r : Reg) :
    lookupA (buildUF F).parent ((buildUF F).mapper r) = none := by
  unfold UnionFind.mapper UnionFind.findRoot
  by_cases hr : r ∈ (buildUF F).lookup
  · simpa [hr] using hroot r hr
  · simp only [hr, if_false, Option.getD_none]
    cases hp : lookupA (buildUF F).parent r with
    | none => rfl
    | some p => exact absurd (buildUF_parent_mem_lookup F r p hp) hr

/-- absence of demotion: after register rewriting, no phi of `F` has all its
sources equal (so the first run of `copy_propagation` demotes nothing). -/
def NoDemotion (F : SSAFunction) : Prop :=
  ∀ p ∈ F.blocks, ∀ phi ∈ p.2.phis,
    allEqual ((mapPhi (buildUF F).mapper phi).srcs.map Prod.snd) = false

instance (F : SSAFunction) : Decidable (NoDemotion F) := by
  unfold NoDemotion; infer_instance

/-- moves of a register-rewritten instruction list: the rewrite maps a move
to a move with mapped source and preserves non-moves. -/
theorem filterMap_moveExtract_map (m : Reg → Reg) :
    ∀ l : List Instr,
      ((l.map fun i => { i with rhs := mapRHS m i.rhs }).filterMap
        moveExtract) =
      (l.filterMap moveExtract).map fun sd => (m sd.1, sd.2)
  | [] => rfl
  | hd :: tl => by
    have ih := filterMap_moveExtract_map m tl
    simp only [List.map_cons, List.filterMap_cons]
    have hhd : moveExtract { lhs := hd.lhs, rhs := mapRHS m hd.rhs } =
        (moveExtract hd).map fun sd => (m sd.1, sd.2) := by
      cases hrhs : hd.rhs <;> simp [moveExtract, mapRHS, hrhs]
    rw [hhd]
    cases hme : moveExtract hd <;> simp [hme, ih]

/-- without demotion, the moves of the rewritten function are the original
moves with their sources replaced by representatives. -/
theorem movesOf_copyPropagation (F : SSAFunction) (hno : NoDemotion F) :
    movesOf (copyPropagation F) =
      (movesOf F).map fun sd => ((buildUF F).mapper sd.1, sd.2) := by
  unfold movesOf copyPropagation
  simp only
  rw [flatMap_map_arg]
  apply flatMap_map_of_mem
  intro p hp
  simp only [cpBlock]
  have hdem : (p.2.phis.map (mapPhi (buildUF F).mapper)).filter
      (fun phi => allEqual (phi.srcs.map Prod.snd)) = [] := by
    apply filter_eq_nil_of
    intro phi hphi
    obtain ⟨phi0, hphi0, rfl⟩ := List.mem_map.mp hphi
    exact hno p hp phi0 hphi0
  rw [hdem]
  simp only [List.map_nil, List.nil_append]
  exact filterMap_moveExtract_map (buildUF F).mapper p.2.instructions

/-- the rewritten function's union-find fixes every representative. -/
theorem mapper_twice_fix (F : SSAFunction) (hroot : (buildUF F).Rooted)
    (hno : NoDemotion F) (r : Reg) :
    (buildUF (copyPropagation F)).mapper ((buildUF F).mapper r) =
      (buildUF F).mapper r := by
  set x := (buildUF F).mapper r with hx
  have h1 : lookupA (buildUF F).parent x = none :=
    mapper_image_parent_none F hroot r
  have h2 : lookupA (buildUF (copyPropagation F)).parent x = none := by
    rw [buildUF_parent_none]
    rw [movesOf_copyPropagation F hno]
    rw [buildUF_parent_none] at h1
    simpa using h1
  unfold UnionFind.mapper UnionFind.findRoot
  by_cases hmem : x ∈ (buildUF (copyPropagation F)).lookup
  · simp [hmem, chase_of_none h2]
  · simp [hmem]

theorem mapRHS_twice_fix {m1 m2 : Reg → Reg} (hfix : ∀ r, m2 (m1 r) = m1 r)
    (rhs : InstructionRHS) : mapRHS m2 (mapRHS m1 rhs) = mapRHS m1 rhs := by
  cases rhs <;> simp [mapRHS, hfix]

theorem mapJump_twice_fix {m1 m2 : Reg → Reg} (hfix : ∀ r, m2 (m1 r) = m1 r)
    (j : JumpInstruction) :
    mapJumpRegs m2 (mapJumpRegs m1 j) = mapJumpRegs m1 j := by
  cases j with
  | branchIfElseZero pred conseq alt => simp [mapJumpRegs, hfix]
  | unconditionalJump dest => rfl
  | ret val => cases val <;> simp [mapJumpRegs, hfix]

theorem mapPhi_twice_fix {m1 m2 : Reg → Reg} (hfix : ∀ r, m2 (m1 r) = m1 r)
    (phi : PhiNode) : mapPhi m2 (mapPhi m1 phi) = mapPhi m1 phi := by
  simp [mapPhi, hfix]

/-- a block rewritten through a mapper is unchanged by a second rewrite
through any mapper fixing the first mapper's image, provided the first
rewrite demoted none of the block's phis. -/
theorem cpBlock_twice_fix {m1 m2 : Reg → Reg} (hfix : ∀ r, m2 (m1 r) = m1 r)
    (b : SSABlock)
    (hnob : ∀ phi ∈ b.phis,
      allEqual ((mapPhi m1 phi).srcs.map Prod.snd) = false) :
    cpBlock m2 (cpBlock m1 b) = cpBlock m1 b := by
  have hdem1 : (b.phis.map (mapPhi m1)).filter
      (fun phi => allEqual (phi.srcs.map Prod.snd)) = [] := by
    apply filter_eq_nil_of
    intro phi hphi
    obtain ⟨phi0, h0, rfl⟩ := List.mem_map.mp hphi
    exact hnob phi0 h0
  have hb : cpBlock m1 b = { b with
      phis := (b.phis.map (mapPhi m1)).filter
        fun phi => !allEqual (phi.srcs.map Prod.snd)
      instructions := b.instructions.map
        fun i => { i with rhs := mapRHS m1 i.rhs }
      exit := mapJumpRegs m1 b.exit } := by
    simp [cpBlock, hdem1]
  rw [hb]
  have hK : ((b.phis.map (mapPhi m1)).filter
      (fun phi => !allEqual (phi.srcs.map Prod.snd))).map (mapPhi m2) =
      (b.phis.map (mapPhi m1)).filter
        fun phi => !allEqual (phi.srcs.map Prod.snd) := by
    apply map_self_of_mem
    intro phi hphi
    obtain ⟨phi0, h0, rfl⟩ := List.mem_map.mp (List.mem_of_mem_filter hphi)
    exact mapPhi_twice_fix hfix phi0
  have hkeep : ((b.phis.map (mapPhi m1)).filter
      (fun phi => !allEqual (phi.srcs.map Prod.snd))).filter
        (fun phi => !allEqual (phi.srcs.map Prod.snd)) =
      (b.phis.map (mapPhi m1)).filter
        fun phi => !allEqual (phi.srcs.map Prod.snd) := by
    apply filter_eq_self_of
    intro phi hphi
    exact (List.mem_filter.mp hphi).2
  have hnil : ((b.phis.map (mapPhi m1)).filter
      (fun phi => !allEqual (phi.srcs.map Prod.snd))).filter
        (fun phi => allEqual (phi.srcs.map Prod.snd)) = [] := by
    apply filter_eq_nil_of
    intro phi hphi
    have := (List.mem_filter.mp hphi).2
    simpa using this
  have hI : ((b.instructions.map fun i => { i with rhs := mapRHS m1 i.rhs }).map
      fun i => { i with rhs := mapRHS m2 i.rhs }) =
      b.instructions.map fun i => { i with rhs := mapRHS m1 i.rhs } := by
    apply map_self_of_mem
    intro i hi
    obtain ⟨i0, _, rfl⟩ := List.mem_map.mp hi
    simp [mapRHS_twice_fix hfix]
  simp only [cpBlock, hK, hkeep, hnil, hI, List.map_nil, List.nil_append,
    mapJump_twice_fix hfix]

/-- C5, amended: copy propagation is idempotent on every SSA function whose
move chains are acyclic (every chain of `move` parents reaches a root, as
SSA dominance of uses guarantees) and on which the first application demotes
no phi to a move; the demotion counterexample above is exactly what the
general statement must exclude. -/
theorem copy_propagation_idempotent_without_demotion (F : SSAFunction)
    (hroot : (buildUF F).Rooted) (hno : NoDemotion F) :
    copyPropagation (copyPropagation F) = copyPropagation F := by
  have hfix := mapper_twice_fix F hroot hno
  have hmap : ((copyPropagation F).blocks.map fun p =>
      (p.1, cpBlock (buildUF (copyPropagation F)).mapper p.2)) =
      (copyPropagation F).blocks := by
    apply map_self_of_mem
    intro p hp
    have hpF : p ∈ F.blocks.map
        fun q => (q.1, cpBlock (buildUF F).mapper q.2) := hp
    obtain ⟨q, hq, rfl⟩ := List.mem_map.mp hpF
    simp only
    rw [cpBlock_twice_fix hfix q.2 fun phi h => hno q hq phi h]
  show SSAFunction.mk (copyPropagation F).startBlock
      (((copyPropagation F).blocks).map fun p =>
        (p.1, cpBlock (buildUF (copyPropagation F)).mapper p.2)) =
    copyPropagation F
  rw [hmap]

/-- an SSA function with one move, an acyclic union-find, and a phi whose
rewritten sources do not collapse, satisfying both side conditions of the
amended idempotence theorem. -/
def noDemotionInput : SSAFunction :=
  { startBlock := 0
    blocks :=
      [ (0, { preds := []
              phis := []
              instructions :=
                [⟨1, .readInput⟩, ⟨2, .readInput⟩, ⟨3, .move 1⟩]
              exit := .branchIfElseZero 1 1 2 })
      , (1, { preds := [0], phis := [], instructions := []
              exit := .unconditionalJump 3 })
      , (2, { preds := [0], phis := [], instructions := []
              exit := .unconditionalJump 3 })
      , (3, { preds := [1, 2]
              phis := [⟨4, [(1, 2), (2, 3)]⟩]
              instructions := [⟨5, .unaryOperation .not 4⟩]
              exit := .ret (some 5) }) ] }

/-- witness for the amended idempotence theorem at `noDemotionInput`. -/
theorem copy_propagation_idempotent_witness :
    copyPropagation (copyPropagation noDemotionInput) =
      copyPropagation noDemotionInput :=
  copy_propagation_idempotent_without_demotion noDemotionInput
    (by decide) (by decide)

/- ## constant_folding (src/src/optimizations/constant_folding.rs)

The lattice value of a register.  `i64` arithmetic is modelled on `Int` with
an explicit wrap to the 64-bit signed range where the source can overflow
(release-build semantics; debug builds would trap instead); bitwise
operations use the two's-complement operations on `Int`, which agree with
`i64` on in-range values. -/

inductive RegisterValue where
  | constVal (v : Int)
  | varying
deriving DecidableEq, Repr

/-- `unify`, the lattice meet used for phi destinations. -/
def unify : Option RegisterValue → Option RegisterValue →
    Option RegisterValue
  | none, b => b
  | a, none => a
  | some (.constVal x), some (.constVal y) =>
    if x = y then some (.constVal x) else some .varying
  | _, _ => some .varying

/-- wrap of an integer into the signed 64-bit range. -/
def wrap64 (v : Int) : Int := (v + 2 ^ 63) % 2 ^ 64 - 2 ^ 63

abbrev KnownValues := List (Reg × RegisterValue)

/-- `evaluate`: `none` models the panic of `known_values[reg]` on a register
missing from the map (impossible when uses obey dominance), `some none` a
runtime-variable result, `some (some v)` the constant `v`. -/
def evaluate (rhs : InstructionRHS) (known : KnownValues) :
    Option (Option Int) :=
  let getReg : Reg → Option (Option Int) := fun reg =>
    match lookupA known reg with
    | none => none
    | some (.constVal v) => some (some v)
    | some .varying => some none
  match rhs with
  | .unaryOperation .not arg =>
    (getReg arg).map fun a => a.map Int.lnot
  | .binaryOperation .xor arg1 arg2 =>
    (getReg arg1).bind fun a => (getReg arg2).map fun b =>
      a.bind fun x => b.map fun y => Int.xor x y
  | .binaryOperation .and arg1 arg2 =>
    (getReg arg1).bind fun a => (getReg arg2).map fun b =>
      a.bind fun x => b.map fun y => Int.land x y
  | .binaryOperation .add arg1 arg2 =>
    (getReg arg1).bind fun a => (getReg arg2).map fun b =>
      a.bind fun x => b.map fun y => wrap64 (x + y)
  | .binaryOperation .sub arg1 arg2 =>
    (getReg arg1).bind fun a => (getReg arg2).map fun b =>
      a.bind fun x => b.map fun y => wrap64 (x - y)
  | .binaryOperation .mul arg1 arg2 =>
    (getReg arg1).bind fun a => (getReg arg2).map fun b =>
      a.bind fun x => b.map fun y => wrap64 (x * y)
  | .binaryOperation .div _ _ => some none
  | .loadIntegerLiteral value => some (some value)
  | .move src => getReg src
  | .readInput => some none
  | .readMemory _ => some none

/-- the `reduce(unify)` over a phi's source values: `none` for an empty
source list (where the source panics on `expect`). -/
def reduceUnify : List (Option RegisterValue) → Option (Option RegisterValue)
  | [] => none
  | x :: xs => some (xs.foldl unify x)

/-- state of the constant-propagation walk. -/
structure CFState where
  visited : List BlockId
  known : KnownValues
  toExplore : List BlockId
deriving Repr

/-- processing of one block's phis: thread `(known, changed)`, `none` when a
phi's sources are empty or all still undefined (a panic in the source). -/
def cfPhis (phis : List PhiNode) (acc : KnownValues × Bool) :
    Option (KnownValues × Bool) :=
  match phis with
  | [] => some acc
  | phi :: rest =>
    match reduceUnify (phi.srcs.map fun s => lookupA acc.1 s.2) with
    | none => none
    | some none => none
    | some (some val) =>
      let changed := acc.2 || !(lookupA acc.1 phi.dest == some val)
      cfPhis rest (updateA acc.1 phi.dest val, changed)

/-- processing of one block's instructions; `none` models the panic of
`evaluate` on an undefined input register. -/
def cfInsts (insts : List Instr) (acc : KnownValues × Bool) :
    Option (KnownValues × Bool) :=
  match insts with
  | [] => some acc
  | i :: rest =>
    match evaluate i.rhs acc.1 with
    | none => none
    | some ev =>
      let val := match ev with
        | some v => RegisterValue.constVal v
        | none => RegisterValue.varying
      let changed := acc.2 || !(lookupA acc.1 i.lhs == some val)
      cfInsts rest (updateA acc.1 i.lhs val, changed)

/-- one iteration of the propagation loop: pop a block, update the known
values from its phis and instructions, clear the visited set when something
changed, and explore the successors the terminator can reach (a branch on a
constant predicate follows only the corresponding edge). -/
def cfStep (F : SSAFunction) (st : CFState) (blockId : BlockId)
    (rest : List BlockId) : Option CFState :=
  match lookupA F.blocks blockId with
  | none => none
  | some block =>
    match cfPhis block.phis (st.known, false) with
    | none => none
    | some acc1 =>
      match cfInsts block.instructions acc1 with
      | none => none
      | some (known, changed) =>
        let visited := if changed then [] else st.visited
        let notPrev := !(visited.contains blockId)
        let visited := if notPrev then visited ++ [blockId] else visited
        if notPrev then
          match block.exit with
          | .branchIfElseZero pred conseq alt =>
            match lookupA known pred with
            | none => none
            | some (.constVal v) =>
              some ⟨visited, known,
                (if v = 0 then conseq else alt) :: rest⟩
            | some .varying =>
              some ⟨visited, known, alt :: conseq :: rest⟩
          | .unconditionalJump dest =>
            some ⟨visited, known, dest :: rest⟩
          | .ret _ => some ⟨visited, known, rest⟩
        else
          some ⟨visited, known, rest⟩

/-- the fuelled propagation loop of `constant_folding`; the source iterates
until the explore stack empties. -/
def cfPropagate (F : SSAFunction) : Nat → CFState → Option KnownValues
  | fuel, st =>
    match st.toExplore with
    | [] => some st.known
    | blockId :: rest =>
      match fuel with
      | 0 => none
      | fuel' + 1 =>
        match cfStep F st blockId rest with
        | none => none
        | some st' => cfPropagate F fuel' st'

/-- the replacement phase of `constant_folding` on one block: demote
constant-destination phis to literal loads at the head, replace the rhs of
constant-lhs instructions by literal loads, and collapse branches on a
constant predicate to unconditional jumps. -/
def cfBlock (known : KnownValues) (b : SSABlock) : SSABlock :=
  { b with
    phis := b.phis.filter fun phi =>
      match lookupA known phi.dest with
      | some (.constVal _) => false
      | _ => true
    instructions :=
      (b.phis.filterMap fun phi =>
        match lookupA known phi.dest with
        | some (.constVal v) =>
          some (⟨phi.dest, .loadIntegerLiteral v⟩ : Instr)
        | _ => none) ++
      b.instructions.map fun i =>
        match lookupA known i.lhs with
        | some (.constVal v) => { i with rhs := .loadIntegerLiteral v }
        | _ => i
    exit :=
      match b.exit with
      | .branchIfElseZero pred conseq alt =>
        match lookupA known pred with
        | some (.constVal v) =>
          .unconditionalJump (if v = 0 then conseq else alt)
        | _ => b.exit
      | e => e }

/-- `constant_folding`: propagate from the start block, then rewrite every
block with the computed register values. -/
def constantFolding (fuel : Nat) (F : SSAFunction) : Option SSAFunction :=
  (cfPropagate F fuel ⟨[], [], [F.startBlock]⟩).map fun known =>
    { F with blocks := F.blocks.map fun p => (p.1, cfBlock known p.2) }

/-- C6: whenever `constant_folding` returns, every block whose terminator
branched on a predicate whose lattice value is a constant ends with an
unconditional jump - to the consequent when the constant is zero and to the
alternate otherwise - and every instruction whose left-hand side was found
constant reappears with its right-hand side replaced by a load of that
literal. -/
theorem constant_folding_rewrites (fuel : Nat) (F Fout : SSAFunction)
    (known : KnownValues)
    (hprop : cfPropagate F fuel ⟨[], [], [F.startBlock]⟩ = some known)
    (hfold : constantFolding fuel F = some Fout) :
    ∀ id b, (id, b) ∈ F.blocks →
      (id, cfBlock known b) ∈ Fout.blocks ∧
      (∀ pred conseq alt v, b.exit = .branchIfElseZero pred conseq alt →
        lookupA known pred = some (.constVal v) →
        (cfBlock known b).exit =
          .unconditionalJump (if v = 0 then conseq else alt)) ∧
      (∀ i ∈ b.instructions, ∀ v,
        lookupA known i.lhs = some (.constVal v) →
        (⟨i.lhs, .loadIntegerLiteral v⟩ : Instr) ∈
          (cfBlock known b).instructions) := by
  intro id b hmem
  have hF : Fout =
      { F with blocks := F.blocks.map fun p => (p.1, cfBlock known p.2) } := by
    unfold constantFolding at hfold
    rw [hprop] at hfold
    simpa using hfold.symm
  refine ⟨?_, ?_, ?_⟩
  · rw [hF]
    exact List.mem_map.mpr ⟨(id, b), hmem, rfl⟩
  · intro pred conseq alt v hexit hval
    simp [cfBlock, hexit, hval]
  · intro i hi v hval
    simp only [cfBlock]
    apply List.mem_append_right
    apply List.mem_map.mpr
    refine ⟨i, hi, ?_⟩
    simp [hval]

/-- input exercising the branch collapse: the start block loads the literal
zero and branches on it. -/
def constantBranchInput : SSAFunction :=
  { startBlock := 0
    blocks :=
      [ (0, { preds := [], phis := []
              instructions := [⟨1, .loadIntegerLiteral 0⟩]
              exit := .branchIfElseZero 1 1 2 })
      , (1, { preds := [0], phis := [], instructions := []
              exit := .ret (some 1) })
      , (2, { preds := [0], phis := [], instructions := []
              exit := .ret none }) ] }

/-- the folded form of `constantBranchInput`. -/
def constantBranchFolded : SSAFunction :=
  { startBlock := 0
    blocks :=
      [ (0, { preds := [], phis := []
              instructions := [⟨1, .loadIntegerLiteral 0⟩]
              exit := .unconditionalJump 1 })
      , (1, { preds := [0], phis := [], instructions := []
              exit := .ret (some 1) })
      , (2, { preds := [0], phis := [], instructions := []
              exit := .ret none }) ] }

/-- witness for the rewrite theorem at `constantBranchInput`: the branch on
the constant-zero register 1 becomes a jump to the consequent. -/
theorem constant_folding_rewrites_witness :
    (0, cfBlock [(1, .constVal 0)]
        { preds := [], phis := []
          instructions := [⟨1, .loadIntegerLiteral 0⟩]
          exit := .branchIfElseZero 1 1 2 }) ∈ constantBranchFolded.blocks ∧
    (cfBlock [(1, .constVal 0)]
        { preds := [], phis := []
          instructions := [⟨1, .loadIntegerLiteral 0⟩]
          exit := .branchIfElseZero 1 1 2 }).exit = .unconditionalJump 1 := by
  have h := constant_folding_rewrites 2 constantBranchInput
    constantBranchFolded [(1, .constVal 0)] (by decide) (by decide) 0
    { preds := [], phis := []
      instructions := [⟨1, .loadIntegerLiteral 0⟩]
      exit := .branchIfElseZero 1 1 2 } (by decide)
  exact ⟨h.1, h.2.1 1 1 2 0 rfl rfl⟩

/- ## Register liveness (src/src/backend/register_liveness.rs)

Blocks at this stage are lowered microcode blocks.  The snapshot of the tree
does not contain the `WithRegisters` implementation for lowered
instructions, so instruction shape is modelled from the spec: per section
4.1, `regs` yields an instruction rhs's register uses, recorded here as the
`uses` field; the left-hand side is kept separately (the definition scan of
`find_liveness` reads `inst.lhs`). -/

structure LInst where
  lhs : Reg
  uses : List Reg
deriving DecidableEq, Repr

structure LBlock where
  preds : List BlockId
  phis : List PhiNode
  instructions : List LInst
  exit : JumpInstruction
deriving DecidableEq, Repr

/-- `DefiningPosition`. -/
inductive DefiningPosition where
  | before
  | phi (i : Nat)
  | instruction (i : Nat)
deriving DecidableEq, Repr

/-- `ConsumingPosition`; the `PhiConsumer` variant carries the phi index and
the predecessor block the phi consumes from. -/
inductive ConsumingPosition where
  | phi (index : Nat) (src : BlockId)
  | instruction (i : Nat)
  | jump
  | after
deriving DecidableEq, Repr

structure RegisterLiveness where
  sinceIndex : DefiningPosition
  untilIndex : ConsumingPosition
deriving DecidableEq, Repr

/-- index of the last instruction using the register (the reverse scan of
the first pass). -/
def lastUseIndex (insts : List LInst) (reg : Reg) : Option Nat :=
  (insts.enum.reverse.find? fun p => p.2.uses.contains reg).map Prod.fst

/-- last phi using the register, together with the predecessor of the first
source entry naming it (`srcs.iter().find`). -/
def lastPhiUse (phis : List PhiNode) (reg : Reg) : Option (Nat × BlockId) :=
  match phis.enum.reverse.find? (fun p => p.2.srcs.any fun s => s.2 = reg)
    with
  | none => none
  | some (idx, phi) =>
    (phi.srcs.find? fun s => s.2 = reg).map fun s => (idx, s.1)

/-- the first pass of `find_liveness` over every block.  A terminator use
sets `latest_use = Jump` in the source, but that branch neither records a
liveness entry nor pushes onto the worklist; it only suppresses the
instruction and phi scans.  An instruction use pushes the block with the use
position; a phi use records a `Before`-to-`Phi` entry and enqueues the
consumed predecessor. -/
def lvFirstPass (blocks : List (BlockId × LBlock)) (reg : Reg) :
    List (BlockId × RegisterLiveness) × List (BlockId × ConsumingPosition) :=
  blocks.foldl
    (fun acc p =>
      if reg ∈ jumpRegs p.2.exit then acc
      else
        match lastUseIndex p.2.instructions reg with
        | some idx => (acc.1, acc.2 ++ [(p.1, .instruction idx)])
        | none =>
          match lastPhiUse p.2.phis reg with
          | some (idx, src) =>
            (updateA acc.1 p.1 ⟨.before, .phi idx src⟩,
             acc.2 ++ [(src, .after)])
          | none => acc)
    ([], [])

/-- worklist loop of `find_liveness`: pop the latest entry (the todo vector
is a stack), skip blocks already marked live-through (`until = After`),
otherwise overwrite the entry's consuming position, scan forward for a
defining phi or instruction, and propagate to all predecessors when the
register is not defined in the block. -/
def lvLoop (blocks : List (BlockId × LBlock)) (reg : Reg) :
    Nat → List (BlockId × RegisterLiveness) →
    List (BlockId × ConsumingPosition) →
    Option (List (BlockId × RegisterLiveness))
  | fuel, out, todo =>
    match todo.getLast? with
    | none => some out
    | some (blockId, latest) =>
      match fuel with
      | 0 => none
      | fuel' + 1 =>
        let rest := todo.dropLast
        if (lookupA out blockId).any
            (fun l => l.untilIndex = .after) then
          lvLoop blocks reg fuel' out rest
        else
          match lookupA blocks blockId with
          | none => none
          | some blk =>
            let prev := (lookupA out blockId).getD ⟨.before, .after⟩
            let phiDef := blk.phis.enum.find? fun p => p.2.dest = reg
            let instDef := blk.instructions.enum.find? fun p => p.2.lhs = reg
            let since : DefiningPosition :=
              match instDef with
              | some q => .instruction q.1
              | none =>
                match phiDef with
                | some q => .phi q.1
                | none => prev.sinceIndex
            let found := instDef.isSome || phiDef.isSome
            let out' := updateA out blockId ⟨since, latest⟩
            let todo' := if found then rest else
              rest ++ blk.preds.map fun pr => (pr, ConsumingPosition.after)
            lvLoop blocks reg fuel' out' todo'

/-- `find_liveness` for one register over the block list. -/
def findLiveness (fuel : Nat) (blocks : List (BlockId × LBlock))
    (reg : Reg) : Option (List (BlockId × RegisterLiveness)) :=
  let fp := lvFirstPass blocks reg
  lvLoop blocks reg fuel fp.1 fp.2

/-- a single-block function whose terminator returns register 1, which is
defined by the block's only instruction and used nowhere else. -/
def terminatorUseBlocks : List (BlockId × LBlock) :=
  [(0, { preds := [], phis := [], instructions := [⟨1, []⟩]
         exit := .ret (some 1) })]

/-- C3: a register read only by a terminator receives no liveness entry at
all.  The first pass sets `latest_use = Jump` for the block but, unlike the
instruction-use and phi-use branches, records nothing in the output map and
pushes nothing onto the worklist, so `find_liveness` returns the empty map -
against the claim that the map contains an entry with `until = Jump` and
that the block is pushed for live-in-to-out propagation. -/
theorem find_liveness_misses_terminator_use (fuel : Nat) :
    findLiveness fuel terminatorUseBlocks 1 = some [] := by
  cases fuel <;> rfl

/- ## Interference rule (src/src/backend/register_coloring.rs) -/

/-- `pos_cmp` from src/src/backend/register_liveness.rs. -/
def posCmp : DefiningPosition → ConsumingPosition → Option Ordering
  | .before, _ => some .lt
  | .phi d, .phi i _ => some (compare d i)
  | .phi _, _ => some .lt
  | .instruction _, .phi _ _ => some .gt
  | .instruction i, .instruction j => some (compare i j)
  | .instruction _, _ => some .lt

/-- the `>=` of the `PartialOrd` impl:
`matches!(pos_cmp, Some(Greater | Equal))`. -/
def posGE (d : DefiningPosition) (c : ConsumingPosition) : Bool :=
  match posCmp d c with
  | some .gt => true
  | some .eq => true
  | _ => false

/-- `lifetimes_overlap`: in the both-phi-consumer case the source first
asserts that both `since` positions are `Before` (`none` models the
assertion failure) and compares the consumed predecessors; otherwise it
tests interval overlap through `pos_cmp`. -/
def lifetimesOverlap (l1 l2 : RegisterLiveness) : Option Bool :=
  match l1.untilIndex, l2.untilIndex with
  | .phi _ s1, .phi _ s2 =>
    if l1.sinceIndex = .before then
      if l2.sinceIndex = .before then some (decide (s1 = s2)) else none
    else none
  | _, _ =>
    some (!(posGE l1.sinceIndex l2.untilIndex ||
            posGE l2.sinceIndex l1.untilIndex))

/-- rank of a defining position in the spec's ordering
`Before < Phi(i) < Instruction(j) < Jump < After`. -/
def definingRank : DefiningPosition → Nat × Nat
  | .before => (0, 0)
  | .phi i => (1, i)
  | .instruction i => (2, i)

/-- rank of a consuming position in the spec's ordering. -/
def consumingRank : ConsumingPosition → Nat × Nat
  | .phi i _ => (1, i)
  | .instruction i => (2, i)
  | .jump => (3, 0)
  | .after => (4, 0)

/-- the spec's strict order between a defining and a consuming position,
stated independently of `pos_cmp`: classes ordered as written, indices
numerically within a class. -/
def specPosLt (d : DefiningPosition) (c : ConsumingPosition) : Prop :=
  (definingRank d).1 < (consumingRank c).1 ∨
    ((definingRank d).1 = (consumingRank c).1 ∧
      (definingRank d).2 < (consumingRank c).2)

/-- both lifetimes end at a phi consumer. -/
def BothPhiUntil (l1 l2 : RegisterLiveness) : Prop :=
  (∃ i s, l1.untilIndex = .phi i s) ∧ ∃ i s, l2.untilIndex = .phi i s

theorem posGE_false_iff (d : DefiningPosition) (c : ConsumingPosition) :
    posGE d c = false ↔ specPosLt d c := by
  cases d <;> cases c <;>
    simp only [posGE, posCmp, specPosLt, definingRank, consumingRank] <;>
    try simp
  case phi.phi d i _ =>
    rcases h : compare d i with _ | _ | _ <;> simp_all [Nat.compare_eq_lt,
      Nat.compare_eq_eq, Nat.compare_eq_gt] <;> omega
  case instruction.instruction i j =>
    rcases h : compare i j with _ | _ | _ <;> simp_all [Nat.compare_eq_lt,
      Nat.compare_eq_eq, Nat.compare_eq_gt] <;> omega

/-- C8: two lifetimes recorded for the same block interfere per the spec's
rule.  When both `until` positions are phi consumers (the case in which the
source's assertions require both `since` positions to be `Before`, as every
liveness map entry with a phi `until` satisfies), they overlap exactly when
the phis consume from the same predecessor; in every other case they overlap
exactly when each `since` precedes the other's `until` in the ordering
`Before < Phi(i) < Instruction(j) < Jump < After`. -/
theorem overlap_formula (d1 d2 : DefiningPosition)
    (c1 c2 : ConsumingPosition) :
    (!(posGE d1 c2 || posGE d2 c1)) = true ↔
      specPosLt d1 c2 ∧ specPosLt d2 c1 := by
  constructor
  · intro h
    have hsplit : posGE d1 c2 = false ∧ posGE d2 c1 = false := by
      simpa using h
    exact ⟨(posGE_false_iff _ _).mp hsplit.1, (posGE_false_iff _ _).mp
      hsplit.2⟩
  · intro h
    have h1 := (posGE_false_iff _ _).mpr h.1
    have h2 := (posGE_false_iff _ _).mpr h.2
    simp [h1, h2]

/-- C8: two lifetimes recorded for the same block interfere per the spec's
rule.  When both `until` positions are phi consumers (the case in which the
source's assertions require both `since` positions to be `Before`, as every
liveness map entry with a phi `until` satisfies), they overlap exactly when
the phis consume from the same predecessor; in every other case they overlap
exactly when each `since` precedes the other's `until` in the ordering
`Before < Phi(i) < Instruction(j) < Jump < After`. -/
theorem lifetimes_overlap_matches_spec (l1 l2 : RegisterLiveness)
    (hsince : BothPhiUntil l1 l2 →
      l1.sinceIndex = .before ∧ l2.sinceIndex = .before) :
    ∃ r, lifetimesOverlap l1 l2 = some r ∧
      (∀ i1 s1 i2 s2, l1.untilIndex = .phi i1 s1 →
        l2.untilIndex = .phi i2 s2 → (r = true ↔ s1 = s2)) ∧
      (¬BothPhiUntil l1 l2 →
        (r = true ↔ specPosLt l1.sinceIndex l2.untilIndex ∧
          specPosLt l2.sinceIndex l1.untilIndex)) := by
  by_cases hbp : BothPhiUntil l1 l2
  · obtain ⟨⟨i1, s1, hu1⟩, ⟨i2, s2, hu2⟩⟩ := hbp
    obtain ⟨h1, h2⟩ := hsince ⟨⟨_, _, hu1⟩, ⟨_, _, hu2⟩⟩
    refine ⟨decide (s1 = s2), ?_, ?_, ?_⟩
    · simp [lifetimesOverlap, hu1, hu2, h1, h2]
    · intro a1 b1 a2 b2 e1 e2
      rw [hu1] at e1
      rw [hu2] at e2
      injection e1 with ea1 eb1
      injection e2 with ea2 eb2
      subst eb1
      subst eb2
      simp
    · intro hn
      exact absurd ⟨⟨_, _, hu1⟩, ⟨_, _, hu2⟩⟩ hn
  · refine ⟨!(posGE l1.sinceIndex l2.untilIndex ||
      posGE l2.sinceIndex l1.untilIndex), ?_, ?_, ?_⟩
    · rcases hu1 : l1.untilIndex with i1 | j1 | _ | _ <;>
        rcases hu2 : l2.untilIndex with i2 | j2 | _ | _
      · exact absurd ⟨⟨_, _, hu1⟩, ⟨_, _, hu2⟩⟩ hbp
      all_goals simp [lifetimesOverlap, hu1, hu2]
    · intro a1 b1 a2 b2 e1 e2
      exact absurd ⟨⟨_, _, e1⟩, ⟨_, _, e2⟩⟩ hbp
    · intro _
      exact overlap_formula l1.sinceIndex l2.sinceIndex l1.untilIndex
        l2.untilIndex

/-- witness for the interference rule: two lifetimes ending in phi consumers
fed from the same predecessor block interfere. -/
theorem lifetimes_overlap_witness :
    lifetimesOverlap ⟨.before, .phi 0 5⟩ ⟨.before, .phi 1 5⟩ = some true := by
  obtain ⟨r, hr, hphi, _⟩ := lifetimes_overlap_matches_spec
    ⟨.before, .phi 0 5⟩ ⟨.before, .phi 1 5⟩ (fun _ => ⟨rfl, rfl⟩)
  have hrt : r = true := (hphi 0 5 1 5 rfl rfl).mpr rfl
  rw [hrt] at hr
  exact hr

/- ## color_registers (src/src/backend/register_coloring.rs)

The interference graph is an association list from register to adjacency
list; iteration orders of the hash containers are modelled by list order. -/

/-- `max_by_key` over the remaining vertices, weighting by accumulated
neighbor counts (missing weight counts as 0); on ties the last maximal
element of the iteration is kept, as `Iterator::max_by_key` does. -/
def pickMax (weights : List (Reg × Int)) (remaining : List Reg) :
    Option Reg :=
  remaining.foldl
    (fun best r =>
      match best with
      | none => some r
      | some b =>
        if (lookupA weights r).getD 0 ≥ (lookupA weights b).getD 0
        then some r else some b)
    none

/-- adjacency of a vertex; `graph[next]` in the source, whose keys cover
every vertex the loops touch. -/
def neighborsOf (graph : List (Reg × List Reg)) (r : Reg) : List Reg :=
  (lookupA graph r).getD []

/-- the maximum-cardinality-search ordering loop.  Each iteration removes
one vertex from `remaining`, so the vertex count bounds the iterations. -/
def mcsLoop (graph : List (Reg × List Reg)) :
    Nat → List (Reg × Int) → List Reg → List Reg → List Reg
  | 0, _, _, ordering => ordering
  | fuel + 1, weights, remaining, ordering =>
    match pickMax weights remaining with
    | none => ordering
    | some next =>
      mcsLoop graph fuel
        ((neighborsOf graph next).foldl
          (fun ws v => updateA ws v ((lookupA ws v).getD 0 + 1)) weights)
        (remaining.erase next)
        (ordering ++ [next])

/-- the ordering produced by maximum cardinality search. -/
def mcsOrdering (graph : List (Reg × List Reg)) : List Reg :=
  mcsLoop graph graph.length [] (graph.map Prod.fst) []

/-- body of the `'indices: for index in 0..` loop at one index: a color
clash with a colored neighbor skips the index (`continue 'indices`); any
other index overwrites the vertex's color and bumps that color's count.
The source has no `break` after the insert, so control always falls through
to the next index. -/
def greedyIndexStep (graph : List (Reg × List Reg)) (reg : Reg)
    (acc : List (Reg × Nat) × List (Nat × Nat)) (index : Nat) :
    List (Reg × Nat) × List (Nat × Nat) :=
  if (neighborsOf graph reg).any fun nb => lookupA acc.1 nb == some index
  then acc
  else (updateA acc.1 reg index,
        updateA acc.2 index ((lookupA acc.2 index).getD 0 + 1))

/-- the `'indices` loop for one vertex.  The index is a `u8` (it builds
`PhysicalRegister { index }`), the body runs at every index 0..=255, and
the range iterator then steps past 255: a u8 overflow, a trap in a debug
build and an endless wrap-around in release.  The loop can be left only
through `continue`, never after the insert, so it never completes normally;
`none` models the abort after the 256 body iterations are threaded. -/
def greedyVertexLoop (graph : List (Reg × List Reg)) (reg : Reg)
    (acc : List (Reg × Nat) × List (Nat × Nat)) :
    Option (List (Reg × Nat) × List (Nat × Nat)) :=
  let _sweep := (List.range 256).foldl (greedyIndexStep graph reg) acc
  none

/-- the greedy coloring pass over the ordering: coloring and per-color
counts thread through each vertex's index loop, which aborts on its u8
overflow, so the pass completes only when the ordering is empty. -/
def greedyColoring (graph : List (Reg × List Reg)) (ordering : List Reg) :
    Option (List (Reg × Nat) × List (Nat × Nat)) :=
  ordering.foldl (fun acc reg => acc.bind (greedyVertexLoop graph reg))
    (some ([], []))

/-- stable insertion into a count-ascending key list. -/
def insertAscBy (counts : List (Nat × Nat)) (x : Nat) :
    List Nat → List Nat
  | [] => [x]
  | y :: ys =>
    if (lookupA counts x).getD 0 ≤ (lookupA counts y).getD 0
    then x :: y :: ys else y :: insertAscBy counts x ys

/-- `sorted_by_key` of itertools: the color keys in ascending count order
(stable). -/
def sortedByCount (counts : List (Nat × Nat)) : List Nat :=
  (counts.map Prod.fst).foldr (insertAscBy counts) []

/-- `usize` subtraction: `none` models the overflow trap of a debug build
(a release build would wrap and `take` everything). -/
def checkedSub (a b : Nat) : Option Nat :=
  if b ≤ a then some (a - b) else none

inductive RegisterAllocation where
  | register (index : Nat)
  | spilled
deriving DecidableEq, Repr

/-- `color_registers`: order the vertices by maximum cardinality search,
run the greedy coloring loop (which aborts on any nonempty ordering), then
mark as spilled the colors selected by taking
`len(colors) - num_registers` keys from the count-descending order
(`sorted_by_key(count).rev().take(..)` in the source). -/
def colorRegisters (graph : List (Reg × List Reg)) (numRegisters : Nat) :
    Option (List (Reg × RegisterAllocation)) :=
  let ordering := mcsOrdering graph
  match greedyColoring graph ordering with
  | none => none
  | some gc =>
    match checkedSub gc.2.length numRegisters with
    | none => none
    | some n =>
      let spilledColors := ((sortedByCount gc.2).reverse).take n
      some (gc.1.map fun vc =>
        (vc.1, if vc.2 ∈ spilledColors then RegisterAllocation.spilled
               else RegisterAllocation.register vc.2))

/-- C4: no spill selection ever happens.  On the star graph 1 - 2, 1 - 3
with one physical register - where the claim says the one lowest-count
color class is marked spilled after greedy coloring - `color_registers`
never returns: the `'indices` loop has no `break` after a successful color
insert, so it sweeps every u8 index and overflows the index on the very
first vertex, before any spill marking.  (The spill selection it can never
reach also contradicts the claim: it takes `len(colors) - k` keys of the
count-DESCENDING order, the heaviest classes, against the spec's rationale
of keeping those in registers.) -/
theorem color_registers_never_marks_spills :
    colorRegisters [(1, [2, 3]), (2, [1]), (3, [1])] 1 = none := by
  rfl

/-- C9: a graph that trivially fits the register file - one conflict-free
register against two physical registers - still aborts: the greedy loop
overflows its u8 index before the spill-count computation is reached, so
`color_registers` does not return normally and never marks the no-spill
result.  (On the empty graph, where the coloring does complete with zero
colors, a debug build then traps on the
`colorcounts.len() - num_registers` underflow instead.) -/
theorem color_registers_aborts_on_fitting_graph :
    colorRegisters [(1, [])] 2 = none := by
  rfl

/- ## Function construction (src/src/ir/structs.rs)

`Function::new` allocates a start block with debug index 0; `new_block`
mints blocks with `block_counter: Option<u16>` driving the debug index.
Block objects are identified by address, modelled by a fresh-identifier
counter `nextAddr`; `blocks` associates each allocated identifier with its
debug index (the vector of weak references). -/

structure IrFunction where
  regCounter : Nat
  blockCounter : Option Nat
  startBlock : Nat
  blocks : List (Nat × Nat)
  nextAddr : Nat
deriving DecidableEq, Repr

/-- `Function::new`. -/
def IrFunction.new : IrFunction :=
  { regCounter := 0, blockCounter := none, startBlock := 0
    blocks := [(0, 0)], nextAddr := 1 }

/-- `Function::new_block`: the next counter is `block_counter + 1`, or 0
when the counter is unset; the fresh block is appended to the vector; when
the counter was unset the fresh block replaces the start block (dropping the
only strong reference to the block `Function::new` made); the counter is
then set. -/
def IrFunction.newBlock (f : IrFunction) : Nat × IrFunction :=
  let nextCounter := (f.blockCounter.map (· + 1)).getD 0
  let id := f.nextAddr
  (id, { f with
    blocks := f.blocks ++ [(id, nextCounter)]
    startBlock := if f.blockCounter.isNone then id else f.startBlock
    blockCounter := some nextCounter
    nextAddr := id + 1 })

/-- C10: on a freshly constructed function the first `new_block` call
replaces the start block by the new block, which receives debug index 0 and
differs from the block `Function::new` created; every call on a function
whose counter is already set leaves the start block unchanged, appends the
fresh block (with the incremented debug index) to the vector, and increments
the counter by one. -/
theorem new_block_start_replacement :
    ((IrFunction.new.newBlock).2.startBlock = (IrFunction.new.newBlock).1 ∧
     (IrFunction.new.newBlock).1 ≠ IrFunction.new.startBlock ∧
     lookupA (IrFunction.new.newBlock).2.blocks
       (IrFunction.new.newBlock).1 = some 0 ∧
     (IrFunction.new.newBlock).2.blockCounter = some 0) ∧
    ∀ (f : IrFunction) (n : Nat), f.blockCounter = some n →
      (f.newBlock).2.startBlock = f.startBlock ∧
      (f.newBlock).2.blocks = f.blocks ++ [((f.newBlock).1, n + 1)] ∧
      (f.newBlock).2.blockCounter = some (n + 1) := by
  constructor
  · exact ⟨rfl, by decide, rfl, rfl⟩
  · intro f n h
    simp [IrFunction.newBlock, h]

/-- witness for the subsequent-call clause, applied to the state after the
first `new_block` call (whose counter is `some 0`). -/
theorem new_block_start_replacement_witness :
    ((IrFunction.new.newBlock).2.newBlock).2.startBlock =
      (IrFunction.new.newBlock).2.startBlock ∧
    ((IrFunction.new.newBlock).2.newBlock).2.blocks =
      (IrFunction.new.newBlock).2.blocks ++
        [(((IrFunction.new.newBlock).2.newBlock).1, 1)] ∧
    ((IrFunction.new.newBlock).2.newBlock).2.blockCounter = some 1 :=
  new_block_start_replacement.2 (IrFunction.new.newBlock).2 0 rfl

/- ## ssa_phis (src/src/ir/ssa_transform.rs)

`ssa_phis` runs, per variable, a worklist over the dominance-frontier map:
the worklist starts at the variable's defining blocks; popping an unexplored
block records a phi placement at each of its frontier blocks and pushes
them.  The embedding works with one variable: `fr` is the frontier map
(`dominance_frontiers` output), `defns` the defining blocks, and `placed`
accumulates the blocks that receive a phi for the variable (the fresh
destination registers play no role in the placement set). -/

def frontierOf (fr : List (Nat × List Nat)) (b : Nat) : List Nat :=
  (lookupA fr b).getD []

structure PhiPlaceState where
  todo : List Nat
  explored : List Nat
  placed : List Nat
deriving DecidableEq, Repr

/-- one pop of the worklist: an already-explored block is dropped; a fresh
block is marked explored, records a phi at each frontier block, and pushes
the frontier blocks (the todo vector is a stack, so pushed entries pop in
reverse order). -/
def phiStep (fr : List (Nat × List Nat)) (st : PhiPlaceState) (next : Nat)
    (rest : List Nat) : PhiPlaceState :=
  if next ∈ st.explored then { st with todo := rest }
  else
    { todo := (frontierOf fr next).reverse ++ rest
      explored := st.explored ++ [next]
      placed := st.placed ++ frontierOf fr next }

/-- the fuelled `while let Some(next) = todo.pop()` loop of `ssa_phis`. -/
def phiRun (fr : List (Nat × List Nat)) :
    Nat → PhiPlaceState → Option PhiPlaceState
  | fuel, st =>
    match st.todo with
    | [] => some st
    | next :: rest =>
      match fuel with
      | 0 => none
      | fuel' + 1 => phiRun fr fuel' (phiStep fr st next rest)

/-- the iterated dominance frontier as the claim states it: the least set
containing the frontiers of the defining blocks and closed under taking
frontiers of members. -/
inductive InIDF (fr : List (Nat × List Nat)) (defns : List Nat) :
    Nat → Prop
  | base (d f : Nat) : d ∈ defns → f ∈ frontierOf fr d → InIDF fr defns f
  | step (b f : Nat) : InIDF fr defns b → f ∈ frontierOf fr b →
      InIDF fr defns f

/-- every block the worklist can ever contain. -/
def phiUniv (fr : List (Nat × List Nat)) (defns : List Nat) : List Nat :=
  defns ++ fr.flatMap Prod.snd

theorem frontierOf_subset_univ (fr : List (Nat × List Nat))
    (defns : List Nat) (b : Nat) :
    ∀ f ∈ frontierOf fr b, f ∈ phiUniv fr defns := by
  intro f hf
  apply List.mem_append_right
  unfold frontierOf at hf
  induction fr with
  | nil => simp [lookupA] at hf
  | cons hd tl ih =>
    simp only [lookupA] at hf
    by_cases hb : hd.1 = b
    · rw [if_pos hb] at hf
      simp only [Option.getD_some] at hf
      simp only [List.flatMap_cons]
      exact List.mem_append_left _ hf
    · rw [if_neg hb] at hf
      simp only [List.flatMap_cons]
      exact List.mem_append_right _ (ih hf)

/-- termination measure: unexplored blocks weighted by their frontier size
plus one, plus the pending worklist length. -/
def phiMeasure (fr : List (Nat × List Nat)) (defns : List Nat)
    (st : PhiPlaceState) : Nat :=
  (((phiUniv fr defns).toFinset \ st.explored.toFinset).sum
    fun b => (frontierOf fr b).length + 1) + st.todo.length

/-- loop invariant of the phi-placement worklist. -/
structure PhiInv (fr : List (Nat × List Nat)) (defns : List Nat)
    (st : PhiPlaceState) : Prop where
  todoU : ∀ b ∈ st.todo, b ∈ phiUniv fr defns
  todoOK : ∀ b ∈ st.todo, b ∈ defns ∨ InIDF fr defns b
  plSound : ∀ f ∈ st.placed, InIDF fr defns f
  defsIn : ∀ d ∈ defns, d ∈ st.explored ∨ d ∈ st.todo
  expFront : ∀ b ∈ st.explored, ∀ f ∈ frontierOf fr b, f ∈ st.placed
  plIn : ∀ f ∈ st.placed, f ∈ st.explored ∨ f ∈ st.todo

theorem phiStep_inv (fr : List (Nat × List Nat)) (defns : List Nat)
    (st : PhiPlaceState) (next : Nat) (rest : List Nat)
    (htodo : st.todo = next :: rest) (hinv : PhiInv fr defns st) :
    PhiInv fr defns (phiStep fr st next rest) := by
  have hnextU : next ∈ phiUniv fr defns :=
    hinv.todoU next (htodo ▸ List.mem_cons_self _ _)
  have hnextOK : next ∈ defns ∨ InIDF fr defns next :=
    hinv.todoOK next (htodo ▸ List.mem_cons_self _ _)
  have hfrontIDF : ∀ f ∈ frontierOf fr next, InIDF fr defns f := by
    intro f hf
    rcases hnextOK with h | h
    · exact InIDF.base next f h hf
    · exact InIDF.step next f h hf
  unfold phiStep
  by_cases hex : next ∈ st.explored
  · rw [if_pos hex]
    refine ⟨?_, ?_, ?_, ?_, ?_, ?_⟩
    · intro b hb
      exact hinv.todoU b (htodo ▸ List.mem_cons_of_mem _ hb)
    · intro b hb
      exact hinv.todoOK b (htodo ▸ List.mem_cons_of_mem _ hb)
    · exact hinv.plSound
    · intro d hd
      rcases hinv.defsIn d hd with h | h
      · exact Or.inl h
      · rw [htodo] at h
        rcases List.mem_cons.mp h with h | h
        · exact Or.inl (h ▸ hex)
        · exact Or.inr h
    · exact hinv.expFront
    · intro f hf
      rcases hinv.plIn f hf with h | h
      · exact Or.inl h
      · rw [htodo] at h
        rcases List.mem_cons.mp h with h | h
        · exact Or.inl (h ▸ hex)
        · exact Or.inr h
  · rw [if_neg hex]
    refine ⟨?_, ?_, ?_, ?_, ?_, ?_⟩
    · intro b hb
      rcases List.mem_append.mp hb with h | h
      · exact frontierOf_subset_univ fr defns next b (List.mem_reverse.mp h)
      · exact hinv.todoU b (htodo ▸ List.mem_cons_of_mem _ h)
    · intro b hb
      rcases List.mem_append.mp hb with h | h
      · exact Or.inr (hfrontIDF b (List.mem_reverse.mp h))
      · exact hinv.todoOK b (htodo ▸ List.mem_cons_of_mem _ h)
    · intro f hf
      rcases List.mem_append.mp hf with h | h
      · exact hinv.plSound f h
      · exact hfrontIDF f h
    · intro d hd
      rcases hinv.defsIn d hd with h | h
      · exact Or.inl (List.mem_append_left _ h)
      · rw [htodo] at h
        rcases List.mem_cons.mp h with h | h
        · exact Or.inl (List.mem_append_right _ (h ▸ List.mem_singleton_self _))
        · exact Or.inr (List.mem_append_right _ h)
    · intro b hb f hf
      rcases List.mem_append.mp hb with h | h
      · exact List.mem_append_left _ (hinv.expFront b h f hf)
      · have hbn : b = next := by
          simpa using h
        exact List.mem_append_right _ (hbn ▸ hf)
    · intro f hf
      rcases List.mem_append.mp hf with h | h
      · rcases hinv.plIn f h with h' | h'
        · exact Or.inl (List.mem_append_left _ h')
        · rw [htodo] at h'
          rcases List.mem_cons.mp h' with h' | h'
          · exact Or.inl (List.mem_append_right _
              (h' ▸ List.mem_singleton_self _))
          · exact Or.inr (List.mem_append_right _ h')
      · exact Or.inr (List.mem_append_left _ (List.mem_reverse.mpr h))

theorem phiStep_measure (fr : List (Nat × List Nat)) (defns : List Nat)
    (st : PhiPlaceState) (next : Nat) (rest : List Nat)
    (htodo : st.todo = next :: rest) (hU : next ∈ phiUniv fr defns) :
    phiMeasure fr defns (phiStep fr st next rest) < phiMeasure fr defns st
    := by
  unfold phiStep phiMeasure
  by_cases hex : next ∈ st.explored
  · rw [if_pos hex]
    simp [htodo]
  · rw [if_neg hex]
    have hEeq : (st.explored ++ [next]).toFinset =
        insert next st.explored.toFinset := by
      ext x
      simp [or_comm]
    have hsdiff : (phiUniv fr defns).toFinset \
        insert next st.explored.toFinset =
        ((phiUniv fr defns).toFinset \ st.explored.toFinset).erase next := by
      ext x
      simp only [Finset.mem_sdiff, Finset.mem_insert, Finset.mem_erase]
      tauto
    have hmem : next ∈ (phiUniv fr defns).toFinset \
        st.explored.toFinset := by
      simp only [Finset.mem_sdiff, List.mem_toFinset]
      exact ⟨hU, hex⟩
    have hsum : ((((phiUniv fr defns).toFinset \
        st.explored.toFinset).erase next).sum
          fun b => (frontierOf fr b).length + 1) +
        ((frontierOf fr next).length + 1) =
        ((phiUniv fr defns).toFinset \ st.explored.toFinset).sum
          fun b => (frontierOf fr b).length + 1 :=
      Finset.sum_erase_add
        ((phiUniv fr defns).toFinset \ st.explored.toFinset)
        (fun b => (frontierOf fr b).length + 1) hmem
    rw [hEeq, hsdiff]
    simp only [List.length_append, List.length_reverse, htodo,
      List.length_cons]
    omega

/-- the worklist terminates with fuel `phiMeasure`, preserving the
invariant and draining the todo list. -/
theorem phiRun_total (fr : List (Nat × List Nat)) (defns : List Nat) :
    ∀ (fuel : Nat) (st : PhiPlaceState),
      phiMeasure fr defns st ≤ fuel → PhiInv fr defns st →
      ∃ stf, phiRun fr fuel st = some stf ∧ PhiInv fr defns stf ∧
        stf.todo = [] := by
  intro fuel
  induction fuel with
  | zero =>
    intro st hm hinv
    match htodo : st.todo with
    | [] =>
      refine ⟨st, ?_, hinv, htodo⟩
      simp [phiRun, htodo]
    | next :: rest =>
      exfalso
      unfold phiMeasure at hm
      rw [htodo] at hm
      simp at hm
  | succ fuel ih =>
    intro st hm hinv
    match htodo : st.todo with
    | [] =>
      refine ⟨st, ?_, hinv, htodo⟩
      simp [phiRun, htodo]
    | next :: rest =>
      have hU : next ∈ phiUniv fr defns :=
        hinv.todoU next (htodo ▸ List.mem_cons_self _ _)
      have hlt := phiStep_measure fr defns st next rest htodo hU
      have hinv' := phiStep_inv fr defns st next rest htodo hinv
      obtain ⟨stf, hrun, hinvf, htf⟩ :=
        ih (phiStep fr st next rest) (by omega) hinv'
      refine ⟨stf, ?_, hinvf, htf⟩
      rw [phiRun, htodo]
      exact hrun

/-- at a drained final state the placed set is exactly the iterated
dominance frontier. -/
theorem placed_iff_of_final (fr : List (Nat × List Nat)) (defns : List Nat)
    (st : PhiPlaceState) (hinv : PhiInv fr defns st) (htodo : st.todo = [])
    : ∀ f, f ∈ st.placed ↔ InIDF fr defns f := by
  intro f
  constructor
  · exact hinv.plSound f
  · intro h
    induction h with
    | base d g hd hg =>
      have hde : d ∈ st.explored := by
        rcases hinv.defsIn d hd with h' | h'
        · exact h'
        · rw [htodo] at h'
          cases h'
      exact hinv.expFront d hde g hg
    | step b g hb hg ih =>
      have hbe : b ∈ st.explored := by
        rcases hinv.plIn b ih with h' | h'
        · exact h'
        · rw [htodo] at h'
          cases h'
      exact hinv.expFront b hbe g hg

/-- C7: for every frontier map and every set of defining blocks, the
`ssa_phis` worklist terminates (with fuel bounded by the measure of the
initial state it reaches a drained state), and the set of blocks in which a
phi is recorded for the variable is exactly the iterated dominance frontier
of the defining blocks: the least set containing the frontiers of defining
blocks and closed under taking frontiers of members. -/
theorem ssa_phis_places_iterated_dominance_frontier
    (fr : List (Nat × List Nat)) (defns : List Nat) :
    ∃ st : PhiPlaceState,
      phiRun fr (phiMeasure fr defns ⟨defns, [], []⟩) ⟨defns, [], []⟩ =
        some st ∧
      ∀ f, f ∈ st.placed ↔ InIDF fr defns f := by
  have hinv0 : PhiInv fr defns ⟨defns, [], []⟩ := by
    refine ⟨?_, ?_, ?_, ?_, ?_, ?_⟩
    · intro b hb
      exact List.mem_append_left _ hb
    · intro b hb
      exact Or.inl hb
    · intro f hf
      cases hf
    · intro d hd
      exact Or.inr hd
    · intro b hb
      cases hb
    · intro f hf
      cases hf
  obtain ⟨stf, hrun, hinvf, htf⟩ := phiRun_total fr defns
    (phiMeasure fr defns ⟨defns, [], []⟩) ⟨defns, [], []⟩ le_rfl hinv0
  exact ⟨stf, hrun, placed_iff_of_final fr defns stf hinvf htf⟩

end MylangRs
